import Mathlib

/-!
Verification of the `lm` link-manager's content-ingestion pipeline and
storage layer, shallowly embedded from the Go sources.

Go strings are modelled as `List Char` (one element per rune).  Where the
Go code indexes by UTF-8 bytes (`len`, `line[:9]`), the byte length is
computed explicitly via `utf8Len`.  External collaborators (HTTP client,
HTML parser, LLM client, SQLite engine) are modelled at their interfaces:
responses and parse results are oracle parameters, and the SQL statements
and triggers of the migration files are translated directly into
operations on list-valued tables.  Wall-clock timestamps (the
`CURRENT_TIMESTAMP` columns, the 750ms retry delay) and the float64 cost
estimate are outside the embedding and are omitted from the record types.
-/

namespace LM

abbrev Str := List Char

/-- UTF-8 encoded length of one rune, used where Go's `len`/slicing count bytes. -/
def utf8Len (c : Char) : Nat :=
  if c.toNat < 0x80 then 1
  else if c.toNat < 0x800 then 2
  else if c.toNat < 0x10000 then 3
  else 4

/-- Go `len(s)` on a string: number of UTF-8 bytes. -/
def byteLen (s : Str) : Nat := (s.map utf8Len).sum

/-- Characters matched by the Go regexp class `\\p{Z}` (Unicode separators:
space, no-break space, ogham space mark, en quad through hair space,
line/paragraph separator, narrow no-break space, medium mathematical space,
ideographic space). -/
def isZ (c : Char) : Bool :=
  c = ' ' || c = '\u00A0' || c = '\u1680' ||
  ('\u2000' ≤ c && c ≤ '\u200A') || c = '\u2028' || c = '\u2029' ||
  c = '\u202F' || c = '\u205F' || c = '\u3000'

/-- Characters trimmed by Go's `unicode.IsSpace` (as used by `strings.TrimSpace`). -/
def isSpaceGo (c : Char) : Bool :=
  c = '\t' || c = '\n' || c = '\u000B' || c = '\u000C' || c = '\r' || c = ' ' ||
  c = '\u0085' || c = '\u00A0' || c = '\u1680' ||
  ('\u2000' ≤ c && c ≤ '\u200A') || c = '\u2028' || c = '\u2029' ||
  c = '\u202F' || c = '\u205F' || c = '\u3000'

/-- Trim characters satisfying `p` from both ends (Go `strings.TrimFunc` shape;
the source trims the leading side first, then the trailing side). -/
def trimBy (p : Char → Bool) (l : Str) : Str :=
  ((l.dropWhile p).reverse.dropWhile p).reverse

/-- Go `strings.TrimSpace`. -/
def goTrimSpace (l : Str) : Str := trimBy isSpaceGo l

/-- Index of the last `' '` in a string, `none` when absent
(Go `strings.LastIndex(s, " ")`, which returns `-1` when absent). -/
def lastSpaceIndex : Str → Option Nat
  | [] => none
  | c :: rest =>
    match lastSpaceIndex rest with
    | some j => some (j + 1)
    | none => if c = ' ' then some 0 else none

/-- `Extractor.TruncateText` (internal/services/extractor.go:77-89): cut at
`maxLength`, back up to the last space when it lies past `maxLength/2`,
append an ellipsis. -/
def truncateText (text : Str) (maxLength : Nat) : Str :=
  if text.length ≤ maxLength then text
  else
    let truncated := text.take maxLength
    match lastSpaceIndex truncated with
    | some i =>
      if maxLength / 2 < i then truncated.take i ++ "...".data
      else truncated ++ "...".data
    | none => truncated ++ "...".data

theorem lastSpaceIndex_get {l : Str} {i : Nat} (h : lastSpaceIndex l = some i) :
    l[i]? = some ' ' := by
  induction l generalizing i with
  | nil => simp [lastSpaceIndex] at h
  | cons c rest ih =>
    simp only [lastSpaceIndex] at h
    cases hr : lastSpaceIndex rest with
    | some j =>
      rw [hr] at h
      cases h
      simpa using ih hr
    | none =>
      rw [hr] at h
      by_cases hc : c = ' '
      · simp [hc] at h
        cases h
        simp [hc]
      · simp [hc] at h

theorem lastSpaceIndex_last {l : Str} {i : Nat} (h : lastSpaceIndex l = some i) :
    ∀ j, i < j → l[j]? ≠ some ' ' := by
  induction l generalizing i with
  | nil => simp [lastSpaceIndex] at h
  | cons c rest ih =>
    simp only [lastSpaceIndex] at h
    cases hr : lastSpaceIndex rest with
    | some j' =>
      rw [hr] at h
      cases h
      intro j hj
      cases j with
      | zero => omega
      | succ j =>
        simpa using ih hr j (by omega)
    | none =>
      rw [hr] at h
      by_cases hc : c = ' '
      · simp [hc] at h
        cases h
        intro j hj
        cases j with
        | zero => omega
        | succ j =>
          intro hget
          simp only [List.getElem?_cons_succ] at hget
          -- rest has no space at all, contradiction with hget
          have : ∀ k : Nat, rest[k]? ≠ some ' ' := by
            clear hget hj ih
            induction rest with
            | nil => intro k; simp
            | cons d tl ih2 =>
              simp only [lastSpaceIndex] at hr
              cases hd : lastSpaceIndex tl with
              | some m => rw [hd] at hr; simp at hr
              | none =>
                rw [hd] at hr
                by_cases hdc : d = ' '
                · simp [hdc] at hr
                · intro k
                  cases k with
                  | zero => simpa using hdc
                  | succ k => simpa using ih2 hd k
          exact this j hget
      · simp [hc] at h

theorem lastSpaceIndex_lt {l : Str} {i : Nat} (h : lastSpaceIndex l = some i) :
    i < l.length := by
  have := lastSpaceIndex_get h
  exact (List.getElem?_eq_some.mp this).1

theorem truncateText_of_le {text : Str} {maxLength : Nat}
    (h : text.length ≤ maxLength) : truncateText text maxLength = text := by
  unfold truncateText
  rw [if_pos h]

theorem truncateText_of_gt_some {text : Str} {maxLength i : Nat}
    (h : maxLength < text.length)
    (hls : lastSpaceIndex (text.take maxLength) = some i) :
    truncateText text maxLength =
      if maxLength / 2 < i then (text.take maxLength).take i ++ "...".data
      else text.take maxLength ++ "...".data := by
  unfold truncateText
  rw [if_neg (by omega)]
  simp only [hls]

theorem truncateText_of_gt_none {text : Str} {maxLength : Nat}
    (h : maxLength < text.length)
    (hls : lastSpaceIndex (text.take maxLength) = none) :
    truncateText text maxLength = text.take maxLength ++ "...".data := by
  unfold truncateText
  rw [if_neg (by omega)]
  simp only [hls]

/-- C6.  `truncate(text, maxLength)`: text at most `maxLength` long is returned
unchanged; otherwise the result is at most `maxLength` plus the 3-character
ellipsis long, and when the last space of the first `maxLength` characters
lies strictly past `maxLength/2` the cut lands exactly on that space (never
inside a word), backing up to the nearest such space. -/
theorem truncateText_spec (text : Str) (maxLength : Nat) :
    (text.length ≤ maxLength → truncateText text maxLength = text) ∧
    (maxLength < text.length → (truncateText text maxLength).length ≤ maxLength + 3) ∧
    (maxLength < text.length → ∀ i, lastSpaceIndex (text.take maxLength) = some i →
      maxLength / 2 < i →
      truncateText text maxLength = text.take i ++ "...".data ∧
      text[i]? = some ' ' ∧
      ∀ j, i < j → j < maxLength → text[j]? ≠ some ' ') := by
  refine ⟨fun h => truncateText_of_le h, ?_, ?_⟩
  · intro h
    have htk : (text.take maxLength).length = maxLength := by
      simp [List.length_take]; omega
    cases hls : lastSpaceIndex (text.take maxLength) with
    | none =>
      rw [truncateText_of_gt_none h hls]
      simp [List.length_append, htk]
    | some i =>
      have hi := lastSpaceIndex_lt hls
      rw [htk] at hi
      rw [truncateText_of_gt_some h hls]
      by_cases hmid : maxLength / 2 < i
      · rw [if_pos hmid]
        simp only [List.length_append, List.length_take]
        simp
      · rw [if_neg hmid]
        simp [List.length_append, htk]
  · intro h i hls hmid
    have hi := lastSpaceIndex_lt hls
    have htk : (text.take maxLength).length = maxLength := by
      simp [List.length_take]; omega
    rw [htk] at hi
    refine ⟨?_, ?_, ?_⟩
    · rw [truncateText_of_gt_some h hls, if_pos hmid, List.take_take]
      congr 2
      omega
    · have := lastSpaceIndex_get hls
      rwa [List.getElem?_take, if_pos hi] at this
    · intro j hij hjm
      have := lastSpaceIndex_last hls j hij
      rwa [List.getElem?_take, if_pos hjm] at this

/-! ## Fetcher (src/unnamed/part_002, `Fetcher.FetchURL`)

The HTTP client is an oracle `server : Nat → Except Str HttpResponse`
giving the outcome of the attempt with the given index (`client.Do`
failure or a response).  `fetchURLFrom remaining attempt` is the loop
`for attempt := 0; attempt < 2; attempt++` with `remaining = 2 - attempt`;
the second component of the result counts the HTTP attempts performed. -/

structure HttpResponse where
  status : Nat
  body : Str
deriving DecidableEq, Repr

def fetchURLFrom (server : Nat → Except Str HttpResponse) :
    Nat → Nat → Except Str Str × Nat
  | 0, attempt => (Except.error "failed to fetch URL after retries".data, attempt)
  | remaining + 1, attempt =>
    match server attempt with
    | Except.error e => (Except.error ("failed to fetch URL: ".data ++ e), attempt + 1)
    | Except.ok resp =>
      if 200 ≤ resp.status ∧ resp.status < 300 then
        (Except.ok resp.body, attempt + 1)
      else if resp.status = 202 ∧ attempt = 0 then
        -- 750ms delay, then retry (delay/cancellation not modelled)
        fetchURLFrom server remaining (attempt + 1)
      else
        (Except.error "unexpected status code".data, attempt + 1)

def fetchURL (server : Nat → Except Str HttpResponse) : Except Str Str × Nat :=
  fetchURLFrom server 2 0

/-- C3 (code bug).  A server that answers 202 on every attempt: `FetchURL`
returns the 202 response body after a single attempt, because the success
test `200 <= status < 300` captures 202 before the retry branch is
reached; consequently every execution of `FetchURL` performs exactly one
HTTP attempt and the retry branch is unreachable.  The claim (and the
code's own comments) say an always-202 server fails after exactly 2
attempts. -/
theorem fetchURL_always202 :
    fetchURL (fun _ => Except.ok ⟨202, "processing".data⟩) =
      (Except.ok "processing".data, 1) ∧
    ∀ server : Nat → Except Str HttpResponse, (fetchURL server).2 = 1 := by
  refine ⟨rfl, ?_⟩
  intro server
  unfold fetchURL fetchURLFrom
  cases server 0 with
  | error e => rfl
  | ok resp =>
    dsimp only
    by_cases h2 : 200 ≤ resp.status ∧ resp.status < 300
    · rw [if_pos h2]
    · rw [if_neg h2]
      have hnot : ¬ (resp.status = 202 ∧ (0 : Nat) = 0) := by
        intro hc
        exact h2 ⟨by omega, by omega⟩
      rw [if_neg hnot]

/-! ## Content store and pipeline (cmd/add.go, cmd/refetch.go, internal/tui/addlink.go)

The `links` table is a list of rows; nullable columns are `Option Str`
(mirroring `sql.NullString`).  The external collaborators are oracles:
the fetch outcome, the extraction outcome as a function of the HTML, and
the summarizer outputs (Go discards the summarizer's error and keeps
whatever string it returned, so a single output string suffices).
Timestamp columns and the token/cost accounting are omitted. -/

structure LinkRow where
  id : Nat
  url : Str
  title : Option Str
  content : Option Str
  summary : Option Str
  status : Str
deriving DecidableEq, Repr

abbrev LinkStore := List LinkRow

/-- `GetLinkByURL` (queries: SELECT * FROM links WHERE url = ?). -/
def getLinkByURL (store : LinkStore) (url : Str) : Option LinkRow :=
  store.find? (fun r => r.url = url)

/-- `sql.NullString{String: s, Valid: s != ""}` as written at every call site. -/
def nullStr (s : Str) : Option Str := if s = [] then none else some s

/-- SQLite AUTOINCREMENT id for a fresh `links` row. -/
def nextLinkId (store : LinkStore) : Nat :=
  (store.map (fun r => r.id)).foldr max 0 + 1

/-- `CreateLink` (INSERT INTO links ... with the UNIQUE constraint on url). -/
def createLink (store : LinkStore) (url : Str)
    (title content summary : Option Str) (status : Str) :
    Except Str (LinkRow × LinkStore) :=
  if (store.find? (fun r => r.url = url)).isSome then
    Except.error "UNIQUE constraint failed: links.url".data
  else
    let row : LinkRow :=
      { id := nextLinkId store, url := url, title := title,
        content := content, summary := summary, status := status }
    Except.ok (row, store ++ [row])

/-- `UpdateLink` (queries: UPDATE links SET title, content, summary, status
WHERE id = ?; the url column is not in the SET list). -/
def updateLink (store : LinkStore) (id : Nat)
    (title content summary : Option Str) (status : Str) : LinkStore :=
  store.map (fun r =>
    if r.id = id then
      { r with title := title, content := content,
               summary := summary, status := status }
    else r)

/-- Outcome of the CLI `addURL` (cmd/add.go:139-199). -/
inductive AddResult where
  | skippedExisting (id : Nat)
  | saved (id : Nat)
  | failed (msg : Str)
deriving DecidableEq, Repr

/-- `addURL` (cmd/add.go:139-199): duplicate check, fetch, extract, optional
summarize, save.  Returns the outcome, the resulting store, and the number
of Fetcher invocations.  The metadata-association tail of the function
(category/tag/task/activity linking, lines 202-292) acts on the separate
association tables modelled below and never touches the `links` table, so
it is not part of this function's store effect. -/
def addURL (store : LinkStore) (url : Str)
    (fetchResult : Except Str Str)
    (extractResult : Str → Except Str (Str × Str))
    (summarizerConfigured : Bool) (summOut : Str) :
    AddResult × LinkStore × Nat :=
  match getLinkByURL store url with
  | some existing => (AddResult.skippedExisting existing.id, store, 0)
  | none =>
    match fetchResult with
    | Except.error e => (AddResult.failed ("fetch failed: ".data ++ e), store, 1)
    | Except.ok html =>
      match extractResult html with
      | Except.error e =>
        (AddResult.failed ("extraction failed: ".data ++ e), store, 1)
      | Except.ok (title, text) =>
        let content := truncateText text 10000
        let summary := if summarizerConfigured then summOut else []
        match createLink store url (nullStr title) (nullStr content)
            (nullStr summary) "read_later".data with
        | Except.error e =>
          (AddResult.failed ("failed to save link: ".data ++ e), store, 1)
        | Except.ok (row, store2) => (AddResult.saved row.id, store2, 1)

/-- `refetchURL` (cmd/refetch.go:112-170): look up the existing row, fetch,
extract, optionally summarize, then `UpdateLink` in place with the
existing status.  With no summarizer the summary variable stays `""`.
The `UpdateLinkFetchedAt`/`UpdateLinkSummarizedAt` timestamp writes are
omitted (timestamp columns are not modelled). -/
def refetchURL (store : LinkStore) (url : Str)
    (fetchResult : Except Str Str)
    (extractResult : Str → Except Str (Str × Str))
    (summarizerConfigured : Bool) (summOut : Str) :
    Except Str Nat × LinkStore × Nat :=
  match getLinkByURL store url with
  | none => (Except.error "URL not found in database".data, store, 0)
  | some existing =>
    match fetchResult with
    | Except.error e => (Except.error ("fetch failed: ".data ++ e), store, 1)
    | Except.ok html =>
      match extractResult html with
      | Except.error e =>
        (Except.error ("extraction failed: ".data ++ e), store, 1)
      | Except.ok (title, text) =>
        let content := truncateText text 10000
        let summary := if summarizerConfigured then summOut else []
        (Except.ok existing.id,
         updateLink store existing.id (nullStr title) (nullStr content)
           (nullStr summary) existing.status, 1)

/-- Messages produced by the TUI pipeline stages (internal/tui/addlink.go). -/
inductive TuiMsg where
  | complete (linkID : Nat) (preview summary category : Str) (tags : List Str)
  | fetched (url html : Str)
  | extracted (url title text content preview : Str)
  | procError (msg : Str)
deriving DecidableEq, Repr

/-- `fetchLink` (internal/tui/addlink.go:889-910): stage 1, duplicate check
then fetch.  For an existing link it emits `linkProcessCompleteMsg` with
the existing id, content and summary (`NullString.String` is `""` when
invalid), an empty category and no tags, performing no fetch.  The second
component counts Fetcher invocations. -/
def fetchLink (store : LinkStore) (url : Str)
    (fetchResult : Except Str Str) : TuiMsg × Nat :=
  match getLinkByURL store url with
  | some existingLink =>
    (TuiMsg.complete existingLink.id (existingLink.content.getD [])
      (existingLink.summary.getD []) [] [], 0)
  | none =>
    match fetchResult with
    | Except.error e => (TuiMsg.procError ("fetch failed: ".data ++ e), 1)
    | Except.ok html => (TuiMsg.fetched url html, 1)

/-- `extractLink` (internal/tui/addlink.go:913-924): stage 2, extraction. -/
def extractLink (url html : Str)
    (extractResult : Str → Except Str (Str × Str)) : TuiMsg :=
  match extractResult html with
  | Except.error e => TuiMsg.procError ("extraction failed: ".data ++ e)
  | Except.ok (title, text) =>
    TuiMsg.extracted url title text (truncateText text 10000) text

/-- C1.  For a URL that already has a Link record, both ingest entry points
short-circuit: the TUI stage returns a complete message carrying the
existing record's id, content and summary with empty category/tag
suggestion fields, and the CLI `addURL` skips the URL leaving the store
unchanged; in both cases zero Fetcher invocations are performed. -/
theorem ingest_duplicate_suppression
    (store : LinkStore) (url : Str) (ex : LinkRow)
    (fetchResult : Except Str Str)
    (extractResult : Str → Except Str (Str × Str))
    (cfg : Bool) (summOut : Str)
    (hex : getLinkByURL store url = some ex) :
    fetchLink store url fetchResult =
      (TuiMsg.complete ex.id (ex.content.getD []) (ex.summary.getD []) [] [], 0) ∧
    addURL store url fetchResult extractResult cfg summOut =
      (AddResult.skippedExisting ex.id, store, 0) := by
  constructor
  · unfold fetchLink
    rw [hex]
  · unfold addURL
    rw [hex]

/-- Witness for C1: a one-row store with the URL already present. -/
theorem ingest_duplicate_suppression_witness :
    fetchLink [⟨1, "http://a".data, some "T".data, some "C".data,
        some "S".data, "read_later".data⟩] "http://a".data
        (Except.error "offline".data) =
      (TuiMsg.complete 1 "C".data "S".data [] [], 0) ∧
    addURL [⟨1, "http://a".data, some "T".data, some "C".data,
        some "S".data, "read_later".data⟩] "http://a".data
        (Except.error "offline".data) (fun _ => Except.error "x".data) true [] =
      (AddResult.skippedExisting 1,
       [⟨1, "http://a".data, some "T".data, some "C".data,
        some "S".data, "read_later".data⟩], 0) :=
  ingest_duplicate_suppression
    [⟨1, "http://a".data, some "T".data, some "C".data,
      some "S".data, "read_later".data⟩]
    "http://a".data
    ⟨1, "http://a".data, some "T".data, some "C".data,
      some "S".data, "read_later".data⟩
    (Except.error "offline".data) (fun _ => Except.error "x".data) true []
    (by decide)

/-- C9.  A fetch-stage or extract-stage failure is terminal and leaves the
store unchanged: the CLI `addURL` returns a failure carrying the
human-readable cause with the same store (no Link row created), and the
TUI stages emit an error message (the TUI writes to the store only in
`summarizeAndSave`, which is never reached). -/
theorem ingest_failure_no_partial_row
    (store : LinkStore) (url : Str)
    (extractResult : Str → Except Str (Str × Str))
    (cfg : Bool) (summOut : Str)
    (hnone : getLinkByURL store url = none) :
    (∀ e, addURL store url (Except.error e) extractResult cfg summOut =
      (AddResult.failed ("fetch failed: ".data ++ e), store, 1)) ∧
    (∀ html e, extractResult html = Except.error e →
      addURL store url (Except.ok html) extractResult cfg summOut =
        (AddResult.failed ("extraction failed: ".data ++ e), store, 1)) ∧
    (∀ e, fetchLink store url (Except.error e) =
      (TuiMsg.procError ("fetch failed: ".data ++ e), 1)) ∧
    (∀ url2 html e, extractResult html = Except.error e →
      extractLink url2 html extractResult =
        TuiMsg.procError ("extraction failed: ".data ++ e)) := by
  refine ⟨?_, ?_, ?_, ?_⟩
  · intro e
    unfold addURL
    rw [hnone]
  · intro html e he
    unfold addURL
    rw [hnone]
    dsimp only
    rw [he]
  · intro e
    unfold fetchLink
    rw [hnone]
  · intro url2 html e he
    unfold extractLink
    rw [he]

/-- Witness for C9: failing fetch and failing extraction on an empty store. -/
theorem ingest_failure_no_partial_row_witness :
    addURL [] "http://a".data (Except.error "timeout".data)
        (fun _ => Except.error "bad html".data) false [] =
      (AddResult.failed ("fetch failed: ".data ++ "timeout".data), [], 1) ∧
    addURL [] "http://a".data (Except.ok "<x>".data)
        (fun _ => Except.error "bad html".data) false [] =
      (AddResult.failed ("extraction failed: ".data ++ "bad html".data), [], 1) := by
  have h := ingest_failure_no_partial_row [] "http://a".data
    (fun _ => Except.error "bad html".data) false [] (by decide)
  exact ⟨h.1 "timeout".data, h.2.1 "<x>".data "bad html".data rfl⟩

/-- C10.  Refetching an existing link with no summarizer configured
overwrites the stored summary with NULL (the empty summary string becomes
an invalid `NullString`), while the row's url is untouched (it is not in
the UPDATE's SET list) and its status is written back as the existing
value; rows with other ids are unchanged. -/
theorem refetch_overwrites_summary
    (store : LinkStore) (url : Str) (ex : LinkRow) (html title text : Str)
    (extractResult : Str → Except Str (Str × Str))
    (hex : getLinkByURL store url = some ex)
    (hextract : extractResult html = Except.ok (title, text)) :
    (refetchURL store url (Except.ok html) extractResult false []).1 =
      Except.ok ex.id ∧
    ∀ i : Nat, ∀ r : LinkRow, store[i]? = some r →
      ∃ r2 : LinkRow,
        (refetchURL store url (Except.ok html) extractResult false []).2.1[i]? =
          some r2 ∧
        r2.url = r.url ∧
        (r.id = ex.id → r2.summary = none ∧ r2.status = ex.status) ∧
        (¬ r.id = ex.id → r2 = r) := by
  have hre : refetchURL store url (Except.ok html) extractResult false [] =
      (Except.ok ex.id,
       updateLink store ex.id (nullStr title)
         (nullStr (truncateText text 10000)) (nullStr []) ex.status, 1) := by
    unfold refetchURL
    rw [hex]
    dsimp only
    rw [hextract]
    rfl
  rw [hre]
  refine ⟨rfl, ?_⟩
  intro i r hr
  dsimp only [updateLink]
  rw [List.getElem?_map, hr]
  by_cases hid : r.id = ex.id
  · refine ⟨⟨r.id, r.url, nullStr title, nullStr (truncateText text 10000), nullStr [], ex.status⟩, ?_, rfl, fun _ => ⟨rfl, rfl⟩, fun hc => absurd hid hc⟩
    dsimp only [Option.map]
    rw [if_pos hid]
  · refine ⟨r, ?_, rfl, fun hc => absurd hc hid, fun _ => rfl⟩
    dsimp only [Option.map]
    rw [if_neg hid]

/-- Witness for C10: a store whose single row has a non-empty summary; after
refetch the summary column is NULL, url and status unchanged. -/
theorem refetch_overwrites_summary_witness :
    (refetchURL [⟨1, "http://a".data, some "T".data, some "C".data,
        some "old summary".data, "remember".data⟩] "http://a".data
        (Except.ok "<html>".data)
        (fun _ => Except.ok ("T2".data, "body text".data)) false []).1 =
      Except.ok 1 ∧
    ∃ r2 : LinkRow,
      (refetchURL [⟨1, "http://a".data, some "T".data, some "C".data,
          some "old summary".data, "remember".data⟩] "http://a".data
          (Except.ok "<html>".data)
          (fun _ => Except.ok ("T2".data, "body text".data)) false []).2.1[0]? =
        some r2 ∧
      r2.url = "http://a".data ∧ r2.summary = none ∧
      r2.status = "remember".data := by
  have h := refetch_overwrites_summary
    [⟨1, "http://a".data, some "T".data, some "C".data,
      some "old summary".data, "remember".data⟩]
    "http://a".data
    ⟨1, "http://a".data, some "T".data, some "C".data,
      some "old summary".data, "remember".data⟩
    "<html>".data "T2".data "body text".data
    (fun _ => Except.ok ("T2".data, "body text".data)) (by decide) rfl
  refine ⟨h.1, ?_⟩
  obtain ⟨r2, hget, hurl, hsum, hrest⟩ := h.2 0 _ rfl
  exact ⟨r2, hget, hurl, (hsum rfl).1, (hsum rfl).2⟩

/-! ## Search index synchronization (migrations/001_initial_schema.sql)

The `links_fts` virtual table and the three `AFTER INSERT/UPDATE/DELETE`
triggers are modelled as a second list of rows mutated in the same
operation as every `links` mutation.  A failed INSERT (unique-url
violation, or an UPDATE matching no row) fires no trigger and leaves the
database unchanged. -/

structure FtsRow where
  rowid : Nat
  url : Str
  title : Option Str
  content : Option Str
  summary : Option Str
deriving DecidableEq, Repr

structure DB where
  links : List LinkRow
  fts : List FtsRow
deriving DecidableEq, Repr

/-- Projection of the indexed columns (url, title, content, summary) of a
`links` row into its `links_fts` row, keyed by `rowid = id`. -/
def projRow (r : LinkRow) : FtsRow :=
  ⟨r.id, r.url, r.title, r.content, r.summary⟩

/-- INSERT INTO links plus the `links_fts_insert` trigger. -/
def dbCreateLink (db : DB) (url : Str)
    (title content summary : Option Str) (status : Str) : DB :=
  if (db.links.find? (fun r => r.url = url)).isSome then
    db -- UNIQUE constraint violation: the INSERT fails, no trigger fires
  else
    let row : LinkRow :=
      { id := nextLinkId db.links, url := url, title := title,
        content := content, summary := summary, status := status }
    { links := db.links ++ [row], fts := db.fts ++ [projRow row] }

/-- UPDATE links SET title, content, summary, status WHERE id = ? plus the
`links_fts_update` trigger, which re-projects the indexed columns of the
updated row (`new.*`) into the fts row with `rowid = new.id`. -/
def dbUpdateLink (db : DB) (id : Nat)
    (title content summary : Option Str) (status : Str) : DB :=
  match db.links.find? (fun r => r.id = id) with
  | none => db -- no row matched: nothing updated, the trigger does not fire
  | some r0 =>
    let nr : LinkRow :=
      { r0 with title := title, content := content,
                summary := summary, status := status }
    { links := db.links.map (fun x =>
        if x.id = id then
          { x with title := title, content := content,
                   summary := summary, status := status }
        else x),
      fts := db.fts.map (fun f => if f.rowid = id then projRow nr else f) }

/-- DELETE FROM links WHERE id = ? plus the `links_fts_delete` trigger. -/
def dbDeleteLink (db : DB) (id : Nat) : DB :=
  { links := db.links.filter (fun r => ¬ r.id = id),
    fts := db.fts.filter (fun f => ¬ f.rowid = id) }

inductive LinkOp where
  | create (url : Str) (title content summary : Option Str) (status : Str)
  | update (id : Nat) (title content summary : Option Str) (status : Str)
  | delete (id : Nat)

def applyOp (db : DB) : LinkOp → DB
  | LinkOp.create url title content summary status =>
    dbCreateLink db url title content summary status
  | LinkOp.update id title content summary status =>
    dbUpdateLink db id title content summary status
  | LinkOp.delete id => dbDeleteLink db id

/-- Run a sequence of link mutations against the freshly migrated (empty)
database. -/
def runOps (ops : List LinkOp) : DB := ops.foldl applyOp ⟨[], []⟩

/-- The invariant maintained by the trigger-backed write path: the fts table
is exactly the projection of the links table, and link ids are unique. -/
def DBInv (db : DB) : Prop :=
  db.fts = db.links.map projRow ∧ (db.links.map (fun r => r.id)).Nodup

theorem mem_le_foldr_max (l : List Nat) (a : Nat) (h : a ∈ l) :
    a ≤ l.foldr max 0 := by
  induction l with
  | nil => cases h
  | cons b tl ih =>
    rcases List.mem_cons.mp h with rfl | h2
    · exact le_max_left _ _
    · exact le_trans (ih h2) (le_max_right _ _)

theorem nextLinkId_not_mem (store : LinkStore) :
    nextLinkId store ∉ store.map (fun r => r.id) := by
  intro hmem
  have := mem_le_foldr_max _ _ hmem
  unfold nextLinkId at this
  omega

theorem find?_eq_of_mem_nodup {links : List LinkRow} {id : Nat} {x r0 : LinkRow}
    (hnd : (links.map (fun r => r.id)).Nodup)
    (hfind : links.find? (fun r => r.id = id) = some r0)
    (hx : x ∈ links) (hxid : x.id = id) : x = r0 := by
  induction links with
  | nil => cases hx
  | cons hd tl ih =>
    rw [List.map_cons, List.nodup_cons] at hnd
    by_cases hhd : hd.id = id
    · rw [List.find?_cons_of_pos _ (by simp [hhd])] at hfind
      cases hfind
      rcases List.mem_cons.mp hx with rfl | hx2
      · rfl
      · exfalso
        apply hnd.1
        have : x.id ∈ tl.map (fun r => r.id) := List.mem_map_of_mem _ hx2
        rwa [hxid, ← hhd] at this
    · rw [List.find?_cons_of_neg _ (by simp [hhd])] at hfind
      rcases List.mem_cons.mp hx with rfl | hx2
      · exact absurd hxid hhd
      · exact ih hnd.2 hfind hx2

theorem filter_map_proj (l : List LinkRow) (id : Nat) :
    (l.filter (fun r => ¬ r.id = id)).map projRow =
      (l.map projRow).filter (fun f => ¬ f.rowid = id) := by
  induction l with
  | nil => rfl
  | cons r tl ih =>
    simp only [decide_not] at ih
    have h2 : (projRow r).rowid = r.id := rfl
    by_cases h : r.id = id
    · simp [List.filter_cons, h, h2, ih]
    · simp [List.filter_cons, h, h2, ih]

theorem applyOp_inv {db : DB} (op : LinkOp) (hinv : DBInv db) :
    DBInv (applyOp db op) := by
  obtain ⟨hproj, hnd⟩ := hinv
  cases op with
  | create url title content summary status =>
    show DBInv (dbCreateLink db url title content summary status)
    unfold dbCreateLink
    by_cases hdup : (db.links.find? (fun r => r.url = url)).isSome
    · rw [if_pos hdup]
      exact ⟨hproj, hnd⟩
    · rw [if_neg hdup]
      constructor
      · simp only [hproj, List.map_append]
        rfl
      · simp only [List.map_append, List.map_cons, List.map_nil]
        apply List.Nodup.append hnd (List.nodup_singleton _)
        intro a ha hb
        rcases List.mem_singleton.mp hb with rfl
        exact nextLinkId_not_mem db.links ha
  | update id title content summary status =>
    show DBInv (dbUpdateLink db id title content summary status)
    unfold dbUpdateLink
    cases hfind : db.links.find? (fun r => r.id = id) with
    | none => exact ⟨hproj, hnd⟩
    | some r0 =>
      dsimp only
      constructor
      · rw [hproj, List.map_map, List.map_map]
        apply List.map_congr_left
        intro x hx
        by_cases hxid : x.id = id
        · have hx0 : x = r0 := find?_eq_of_mem_nodup hnd hfind hx hxid
          subst hx0
          have hrow : (projRow x).rowid = id := hxid
          rw [Function.comp_apply, Function.comp_apply, if_pos hrow,
            if_pos hxid]
        · have hrow : ¬ (projRow x).rowid = id := hxid
          rw [Function.comp_apply, Function.comp_apply, if_neg hrow,
            if_neg hxid]
      · rw [List.map_map]
        have : ((fun r => r.id) ∘ fun x =>
            if x.id = id then
              { x with title := title, content := content,
                       summary := summary, status := status }
            else x) = fun r : LinkRow => r.id := by
          funext x
          by_cases hxid : x.id = id
          · simp [Function.comp_apply, hxid]
          · simp [Function.comp_apply, hxid]
        rw [this]
        exact hnd
  | delete id =>
    show DBInv (dbDeleteLink db id)
    unfold dbDeleteLink
    constructor
    · rw [hproj, ← filter_map_proj]
    · apply List.Nodup.sublist _ hnd
      exact List.Sublist.map _ (List.filter_sublist _)

theorem foldl_applyOp_inv (ops : List LinkOp) (db : DB) (hinv : DBInv db) :
    DBInv (ops.foldl applyOp db) := by
  induction ops generalizing db with
  | nil => exact hinv
  | cons op tl ih => exact ih _ (applyOp_inv op hinv)

/-- C2.  After any sequence of create/update/delete operations on Link
records (run from the freshly migrated empty database), the search index
holds exactly one row per Link record — the row counts are equal — and
its contents are exactly the per-write re-projection of each link's
indexed columns. -/
theorem fts_index_consistency (ops : List LinkOp) :
    (runOps ops).fts.length = (runOps ops).links.length ∧
    (runOps ops).fts = (runOps ops).links.map projRow := by
  have h := foldl_applyOp_inv ops ⟨[], []⟩ ⟨rfl, List.nodup_nil⟩
  refine ⟨?_, h.1⟩
  rw [runOps] at *
  rw [h.1, List.length_map]

/-! ## Association tables (migrations/002 queries `LinkTag`, `LinkCategory`)

`link_tags` and `link_categories` have composite primary keys, so the
plain `INSERT INTO ... VALUES (?, ?)` fails on a duplicate pair; every
pipeline call site discards the returned error (`_ = db.Queries.LinkTag(...)`). -/

def linkTag (linkTags : List (Nat × Nat)) (linkId tagId : Nat) :
    Except Str (List (Nat × Nat)) :=
  if (linkId, tagId) ∈ linkTags then
    Except.error "UNIQUE constraint failed: link_tags".data
  else Except.ok (linkTags ++ [(linkId, tagId)])

def linkCategory (linkCategories : List (Nat × Nat)) (linkId categoryId : Nat) :
    Except Str (List (Nat × Nat)) :=
  if (linkId, categoryId) ∈ linkCategories then
    Except.error "UNIQUE constraint failed: link_categories".data
  else Except.ok (linkCategories ++ [(linkId, categoryId)])

/-- A call site of the form `_ = db.Queries.LinkTag(ctx, ...)`: the error is
discarded and the table keeps its previous contents. -/
def linkTagIgnored (linkTags : List (Nat × Nat)) (linkId tagId : Nat) :
    List (Nat × Nat) :=
  match linkTag linkTags linkId tagId with
  | Except.error _ => linkTags
  | Except.ok tbl => tbl

def linkCategoryIgnored (linkCategories : List (Nat × Nat))
    (linkId categoryId : Nat) : List (Nat × Nat) :=
  match linkCategory linkCategories linkId categoryId with
  | Except.error _ => linkCategories
  | Except.ok tbl => tbl

/-- C4.  Re-linking an already-linked (link, tag) or (link, category) pair:
the INSERT reports a conflict rather than succeeding, the call site
swallows it, and the association tables are unchanged — a silent no-op,
not a fatal error. -/
theorem association_idempotent_tolerant
    (linkTags linkCategories : List (Nat × Nat)) (l t c : Nat)
    (ht : (l, t) ∈ linkTags) (hc : (l, c) ∈ linkCategories) :
    (∃ e, linkTag linkTags l t = Except.error e) ∧
    linkTagIgnored linkTags l t = linkTags ∧
    (∃ e, linkCategory linkCategories l c = Except.error e) ∧
    linkCategoryIgnored linkCategories l c = linkCategories := by
  refine ⟨⟨"UNIQUE constraint failed: link_tags".data, ?_⟩, ?_,
    ⟨"UNIQUE constraint failed: link_categories".data, ?_⟩, ?_⟩
  · unfold linkTag
    rw [if_pos ht]
  · unfold linkTagIgnored linkTag
    rw [if_pos ht]
  · unfold linkCategory
    rw [if_pos hc]
  · unfold linkCategoryIgnored linkCategory
    rw [if_pos hc]

/-- Witness for C4 on concrete association tables containing the pairs. -/
theorem association_idempotent_tolerant_witness :
    linkTagIgnored [(1, 7)] 1 7 = [(1, 7)] ∧
    linkCategoryIgnored [(1, 9)] 1 9 = [(1, 9)] := by
  have h := association_idempotent_tolerant [(1, 7)] [(1, 9)] 1 7 9
    (by decide) (by decide)
  exact ⟨h.2.1, h.2.2.2⟩

/-! ## Metadata-response parsing (internal/services/summarizer.go:122-190)
and tag normalization (cmd/add.go:224-242, 295-308) -/

/-- The space/tab test used by the inline trimming loops of
`parseMetadataResponse`. -/
def isST (c : Char) : Bool := c = ' ' || c = '\t'

/-- The inline leading/trailing space-and-tab trimming loops. -/
def trimST (l : Str) : Str := trimBy isST l

/-- The rune loop of summarizer.go:123-132 that splits the response into
lines: a newline pushes a fresh empty line, any other rune extends the
current (last) line, and a rune before any line exists starts the first
line.  The accumulator keeps the current line at the head, reversed at
the end. -/
def goLines (cs : Str) : List Str :=
  (cs.foldl (fun (st : List Str) c =>
    if c = '\n' then [] :: st
    else
      match st with
      | [] => [[c]]
      | cur :: done => (cur ++ [c]) :: done) []).reverse

/-- One step of the comma-splitting loop of summarizer.go:151-168: on a
comma the current tag is trimmed and appended when non-empty, otherwise
the rune extends the current tag. -/
def splitStep (acc : List Str × Str) (ch : Char) : List Str × Str :=
  if ch = ',' then
    (if trimST acc.2 = [] then acc.1 else acc.1 ++ [trimST acc.2], [])
  else (acc.1, acc.2 ++ [ch])

/-- The tag parsing of a `Tags:` line body (summarizer.go:145-178): trim
leading space/tab from the remainder, split on commas, trim each tag and
keep the non-empty ones (including the final tag after the loop). -/
def splitTags (tagsStr0 : Str) : List Str :=
  let acc := (tagsStr0.dropWhile isST).foldl splitStep ([], [])
  if trimST acc.2 = [] then acc.1 else acc.1 ++ [trimST acc.2]

/-- Per-line dispatch of summarizer.go:134-180.  `len(line) > 10` and
`line[:9]` count UTF-8 bytes; since `"Category:"`/`"Tags:"` are ASCII the
byte prefix comparison coincides with the rune prefix comparison. -/
def parseLine (acc : Str × List Str) (line : Str) : Str × List Str :=
  if 10 < byteLen line ∧ line.take 9 = "Category:".data then
    (trimST (line.drop 9), acc.2)
  else if 5 < byteLen line ∧ line.take 5 = "Tags:".data then
    (acc.1, acc.2 ++ splitTags (line.drop 5))
  else acc

/-- `parseMetadataResponse` (summarizer.go:122-190): line-by-line parse with
fallbacks `"General"` and `["uncategorized"]`. -/
def parseMetadataResponse (response : Str) : Str × List Str :=
  let parsed := (goLines response).foldl parseLine ([], [])
  (if parsed.1 = [] then "General".data else parsed.1,
   if parsed.2 = [] then ["uncategorized".data] else parsed.2)

/-- Go `strings.ToLower` on the ASCII range (the full Unicode case table is
not embedded; every input exercised here is ASCII). -/
def goToLower (s : Str) : Str := s.map Char.toLower

/-- Go `strings.Split(s, ",")`. -/
def splitOnComma : Str → List Str
  | [] => [[]]
  | c :: rest =>
    if c = ',' then [] :: splitOnComma rest
    else
      match splitOnComma rest with
      | s :: ss => (c :: s) :: ss
      | [] => [[c]]

/-- `parseTags` (cmd/add.go:295-308): split the flag value on commas,
trim and lower-case each part, drop empties. -/
def parseTags (raw : Str) : List Str :=
  if goTrimSpace raw = [] then []
  else
    ((splitOnComma raw).map (fun p => goToLower (goTrimSpace p))).filter
      (fun t => ¬ t = [])

/-- Tag-list selection of cmd/add.go:224-228: flag tags take priority,
otherwise the AI-suggested tags are used as-is. -/
def addURLTagList (flagTags : Str) (suggestedTags : List Str) : List Str :=
  let tagList := parseTags flagTags
  if tagList = [] then suggestedTags else tagList

/-- The names actually passed to `GetTagByName`/`CreateTag` by the loop at
cmd/add.go:229-242 (empty names are skipped). -/
def addURLTagLookups (flagTags : Str) (suggestedTags : List Str) : List Str :=
  (addURLTagList flagTags suggestedTags).filter (fun t => ¬ t = [])

theorem head?_dropWhile_false {p : Char → Bool} {l : Str} {c : Char}
    (h : (l.dropWhile p).head? = some c) : p c = false := by
  have h2 := List.head?_dropWhile_not p l
  rw [h] at h2
  exact h2

theorem head?_append_left {α : Type} {a t : List α} {c : α}
    (h : a.head? = some c) : (a ++ t).head? = some c := by
  cases a with
  | nil => cases h
  | cons x xs => simpa using h

theorem trimBy_split (p : Char → Bool) (l : Str) :
    l.dropWhile p =
      trimBy p l ++ ((l.dropWhile p).reverse.takeWhile p).reverse := by
  unfold trimBy
  calc l.dropWhile p = ((l.dropWhile p).reverse).reverse := by
        rw [List.reverse_reverse]
  _ = (((l.dropWhile p).reverse.takeWhile p) ++
        ((l.dropWhile p).reverse.dropWhile p)).reverse := by
        rw [List.takeWhile_append_dropWhile]
  _ = _ := by rw [List.reverse_append]

theorem trimBy_head {p : Char → Bool} {l : Str} {c : Char}
    (h : (trimBy p l).head? = some c) : p c = false := by
  apply head?_dropWhile_false (l := l)
  rw [trimBy_split p l]
  exact head?_append_left h

theorem trimBy_last {p : Char → Bool} {l : Str} {c : Char}
    (h : (trimBy p l).getLast? = some c) : p c = false := by
  unfold trimBy at h
  rw [List.getLast?_reverse] at h
  exact head?_dropWhile_false h

/-- No leading or trailing character satisfying `p`. -/
def noEdge (p : Char → Bool) (l : Str) : Bool :=
  (match l.head? with | some c => !p c | none => true) &&
  (match l.getLast? with | some c => !p c | none => true)

theorem trimBy_noEdge (p : Char → Bool) (l : Str) :
    noEdge p (trimBy p l) = true := by
  unfold noEdge
  rw [Bool.and_eq_true]
  constructor
  · cases hh : (trimBy p l).head? with
    | none => rfl
    | some c => simp [trimBy_head hh]
  · cases hh : (trimBy p l).getLast? with
    | none => rfl
    | some c => simp [trimBy_last hh]

/-- Every tag ever appended by the comma loop is a non-empty `trimST` image. -/
theorem splitStep_fold_mem (cs : Str) (acc : List Str × Str)
    (hacc : ∀ t ∈ acc.1, (∃ s, t = trimST s) ∧ t ≠ []) :
    ∀ t ∈ (cs.foldl splitStep acc).1, (∃ s, t = trimST s) ∧ t ≠ [] := by
  induction cs generalizing acc with
  | nil => exact hacc
  | cons ch rest ih =>
    rw [List.foldl_cons]
    apply ih
    unfold splitStep
    by_cases hch : ch = ','
    · rw [if_pos hch]
      by_cases hemp : trimST acc.2 = []
      · rw [if_pos hemp]
        exact hacc
      · rw [if_neg hemp]
        intro t ht
        rcases List.mem_append.mp ht with h1 | h2
        · exact hacc t h1
        · rcases List.mem_singleton.mp h2 with rfl
          exact ⟨⟨acc.2, rfl⟩, hemp⟩
    · rw [if_neg hch]
      exact hacc

theorem splitTags_mem {tagsStr : Str} {t : Str} (h : t ∈ splitTags tagsStr) :
    (∃ s, t = trimST s) ∧ t ≠ [] := by
  unfold splitTags at h
  set acc := (tagsStr.dropWhile isST).foldl splitStep ([], []) with hacc
  have hbase := splitStep_fold_mem (tagsStr.dropWhile isST) ([], [])
    (by intro t ht; cases ht)
  rw [← hacc] at hbase
  by_cases hemp : trimST acc.2 = []
  · rw [if_pos hemp] at h
    exact hbase t h
  · rw [if_neg hemp] at h
    rcases List.mem_append.mp h with h1 | h2
    · exact hbase t h1
    · rcases List.mem_singleton.mp h2 with rfl
      exact ⟨⟨acc.2, rfl⟩, hemp⟩

theorem parseLine_fold_tags_mem (lines : List Str) (acc : Str × List Str)
    (hacc : ∀ t ∈ acc.2, (∃ s, t = trimST s) ∧ t ≠ []) :
    ∀ t ∈ (lines.foldl parseLine acc).2, (∃ s, t = trimST s) ∧ t ≠ [] := by
  induction lines generalizing acc with
  | nil => exact hacc
  | cons line rest ih =>
    rw [List.foldl_cons]
    apply ih
    unfold parseLine
    by_cases hcat : 10 < byteLen line ∧ line.take 9 = "Category:".data
    · rw [if_pos hcat]
      exact hacc
    · rw [if_neg hcat]
      by_cases htag : 5 < byteLen line ∧ line.take 5 = "Tags:".data
      · rw [if_pos htag]
        intro t ht
        rcases List.mem_append.mp ht with h1 | h2
        · exact hacc t h1
        · exact splitTags_mem h2
      · rw [if_neg htag]
        exact hacc

theorem foldl_parseLine_cat (lines : List Str) (acc : Str × List Str)
    (h : ∀ line ∈ lines, ¬ (10 < byteLen line ∧ line.take 9 = "Category:".data)) :
    (lines.foldl parseLine acc).1 = acc.1 := by
  induction lines generalizing acc with
  | nil => rfl
  | cons line rest ih =>
    rw [List.foldl_cons,
      ih _ (fun l hl => h l (List.mem_cons_of_mem _ hl))]
    unfold parseLine
    rw [if_neg (h line (List.mem_cons_self _ _))]
    by_cases htag : 5 < byteLen line ∧ line.take 5 = "Tags:".data
    · rw [if_pos htag]
    · rw [if_neg htag]

theorem foldl_parseLine_tags (lines : List Str) (acc : Str × List Str)
    (h : ∀ line ∈ lines, ¬ (5 < byteLen line ∧ line.take 5 = "Tags:".data)) :
    (lines.foldl parseLine acc).2 = acc.2 := by
  induction lines generalizing acc with
  | nil => rfl
  | cons line rest ih =>
    rw [List.foldl_cons,
      ih _ (fun l hl => h l (List.mem_cons_of_mem _ hl))]
    unfold parseLine
    by_cases hcat : 10 < byteLen line ∧ line.take 9 = "Category:".data
    · rw [if_pos hcat]
    · rw [if_neg hcat]
      rw [if_neg (h line (List.mem_cons_self _ _))]

/-- C7.  Parsing `"Category: Tech\nTags: a, b, c"` yields category `"Tech"`
and tags `["a","b","c"]`; when no line passes the `Category:` test the
category defaults to `"General"`, and when no line passes the `Tags:`
test the tags default to `["uncategorized"]`. -/
theorem parseMetadataResponse_spec :
    parseMetadataResponse "Category: Tech\nTags: a, b, c".data =
      ("Tech".data, ["a".data, "b".data, "c".data]) ∧
    (∀ response : Str,
      (∀ line ∈ goLines response,
        ¬ (10 < byteLen line ∧ line.take 9 = "Category:".data)) →
      (parseMetadataResponse response).1 = "General".data) ∧
    (∀ response : Str,
      (∀ line ∈ goLines response,
        ¬ (5 < byteLen line ∧ line.take 5 = "Tags:".data)) →
      (parseMetadataResponse response).2 = ["uncategorized".data]) := by
  refine ⟨by decide, ?_, ?_⟩
  · intro response h
    unfold parseMetadataResponse
    dsimp only
    rw [foldl_parseLine_cat _ _ h]
    rfl
  · intro response h
    unfold parseMetadataResponse
    dsimp only
    rw [foldl_parseLine_tags _ _ h]
    rfl

/-- Witness for C7: `"hello"` has no Category or Tags line, so both
defaults apply. -/
theorem parseMetadataResponse_spec_witness :
    (parseMetadataResponse "hello".data).1 = "General".data ∧
    (parseMetadataResponse "hello".data).2 = ["uncategorized".data] :=
  ⟨parseMetadataResponse_spec.2.1 "hello".data (by decide),
   parseMetadataResponse_spec.2.2 "hello".data (by decide)⟩

/-- C5 counterexample: the response `"Tags: Foo"` parses to the tag
`"Foo"`, which is not lower-cased, and with no flag tags the pipeline
passes exactly `"Foo"` to tag lookup/creation. -/
theorem suggested_tags_not_lowercased :
    (parseMetadataResponse "Tags: Foo".data).2 = ["Foo".data] ∧
    goToLower "Foo".data ≠ "Foo".data ∧
    addURLTagLookups [] (parseMetadataResponse "Tags: Foo".data).2 =
      ["Foo".data] := by
  decide

theorem toLower_idempotent (c : Char) :
    Char.toLower (Char.toLower c) = Char.toLower c := by
  unfold Char.toLower
  dsimp only
  by_cases h : c.toNat ≥ 65 ∧ c.toNat ≤ 90
  · rw [if_pos h]
    have hv : (c.toNat + 32).isValidChar := by
      left
      omega
    have ht : (Char.ofNat (c.toNat + 32)).toNat = c.toNat + 32 := by
      rw [Char.ofNat, dif_pos hv]
      rfl
    rw [if_neg (by rw [ht]; omega)]
  · rw [if_neg h, if_neg h]

/-- C5 (amended).  Tags parsed from the LLM response are trimmed of
spaces/tabs and non-empty but not lower-cased in general; the pipeline
lower-cases only the flag-supplied tags (`parseTags`), and with no flag
tags the AI-suggested tags reach lookup/creation exactly as parsed. -/
theorem tags_trimmed_flag_tags_lowercased :
    (∀ response : Str, ∀ tag ∈ (parseMetadataResponse response).2,
      noEdge isST tag = true ∧ tag ≠ []) ∧
    (∀ raw : Str, ∀ tag ∈ parseTags raw,
      goToLower tag = tag ∧ tag ≠ []) ∧
    (∀ suggestedTags : List Str, addURLTagList [] suggestedTags = suggestedTags) := by
  refine ⟨?_, ?_, fun suggestedTags => rfl⟩
  · intro response tag htag
    unfold parseMetadataResponse at htag
    dsimp only at htag
    by_cases hemp : ((goLines response).foldl parseLine ([], [])).2 = []
    · rw [if_pos hemp] at htag
      rcases List.mem_singleton.mp htag with rfl
      exact ⟨by decide, by decide⟩
    · rw [if_neg hemp] at htag
      have hmem := parseLine_fold_tags_mem (goLines response) ([], [])
        (by intro t ht; cases ht) tag htag
      obtain ⟨⟨s, rfl⟩, hne⟩ := hmem
      exact ⟨trimBy_noEdge isST s, hne⟩
  · intro raw tag htag
    unfold parseTags at htag
    by_cases hemp : goTrimSpace raw = []
    · rw [if_pos hemp] at htag
      cases htag
    · rw [if_neg hemp] at htag
      have := List.mem_filter.mp htag
      obtain ⟨hmem, hne⟩ := this
      obtain ⟨p, _, rfl⟩ := List.mem_map.mp hmem
      refine ⟨?_, by simpa using hne⟩
      unfold goToLower
      rw [List.map_map]
      apply List.map_congr_left
      intro c _
      exact toLower_idempotent c

/-- Witness for C5 (amended): a parsed tag is trimmed; a flag tag is
lower-cased; AI tags pass through untouched. -/
theorem tags_trimmed_flag_tags_lowercased_witness :
    noEdge isST "foo".data = true ∧
    goToLower "a".data = "a".data ∧
    addURLTagList [] ["Foo".data] = ["Foo".data] :=
  ⟨(tags_trimmed_flag_tags_lowercased.1 "Tags: foo".data "foo".data
      (by decide)).1,
   (tags_trimmed_flag_tags_lowercased.2.1 "A".data "a".data (by decide)).1,
   tags_trimmed_flag_tags_lowercased.2.2 ["Foo".data]⟩

/-! ## Markdown whitespace normalization (internal/services/extractor.go:13-73)

`ExtractText` ends with
`text = strings.TrimSpace(multipleBlankLines.ReplaceAllString(md, "\n\n"))`
where `multipleBlankLines = \n\p{Z}*(\n\p{Z}*)+\n` and `md` is the
markdown after image/link stripping.  A match of that pattern starts at a
newline and, by greedy matching, extends over the maximal run of
newline/`\p{Z}` characters up to the run's last newline, provided the run
contains at least 3 newlines; `\p{Z}` characters after the last newline
stay outside the match.  `collapseFuel` performs the non-overlapping
left-to-right replacement of each match by `"\n\n"`; the fuel argument
(at least the string length) only funds termination. -/

/-- A character that can appear inside a `multipleBlankLines` run. -/
def isRunChar (c : Char) : Bool := c = '\n' || isZ c

/-- The `\p{Z}` characters of a run after its final newline (they lie
outside the regexp match and are preserved). -/
def zTail (run : Str) : Str :=
  (run.reverse.takeWhile (fun d => !(d = '\n'))).reverse

def collapseFuel : Nat → Str → Str
  | 0, cs => cs
  | _ + 1, [] => []
  | fuel + 1, c :: rest =>
    if c = '\n' then
      if 3 ≤ ((c :: rest).takeWhile isRunChar).count '\n' then
        '\n' :: '\n' :: (zTail ((c :: rest).takeWhile isRunChar) ++
          collapseFuel fuel ((c :: rest).dropWhile isRunChar))
      else
        (c :: rest).takeWhile isRunChar ++
          collapseFuel fuel ((c :: rest).dropWhile isRunChar)
    else c :: collapseFuel fuel rest

/-- `multipleBlankLines.ReplaceAllString(md, "\n\n")`. -/
def collapseBlankLines (cs : Str) : Str := collapseFuel cs.length cs

/-- The post-processing of `ExtractText` (extractor.go:72) applied to the
image/link-stripped markdown. -/
def extractPostWhitespace (md : Str) : Str :=
  goTrimSpace (collapseBlankLines md)

/-- `true` when some contiguous stretch of newline/`\p{Z}` characters
contains 3 or more newlines, i.e. when two or more consecutive blank
lines remain somewhere in the string. -/
def badRun : Str → Bool
  | [] => false
  | c :: rest =>
    (decide (c = '\n') &&
      decide (3 ≤ ((c :: rest).takeWhile isRunChar).count '\n')) ||
    badRun rest

/-- `true` when the first or last character is Go whitespace. -/
def hasEdgeSpace (l : Str) : Bool :=
  (match l.head? with | some c => isSpaceGo c | none => false) ||
  (match l.getLast? with | some c => isSpaceGo c | none => false)

/-- `true` when the string is empty or starts with a non-run character. -/
def headNotRun (l : Str) : Bool :=
  match l.head? with
  | some c => !isRunChar c
  | none => true

theorem headNotRun_dropWhile (l : Str) :
    headNotRun (l.dropWhile isRunChar) = true := by
  unfold headNotRun
  cases hh : (l.dropWhile isRunChar).head? with
  | none => rfl
  | some c => simp [head?_dropWhile_false hh]

theorem headNotRun_collapseFuel (fuel : Nat) (cs : Str)
    (h : headNotRun cs = true) :
    headNotRun (collapseFuel fuel cs) = true := by
  cases fuel with
  | zero => exact h
  | succ fuel =>
    cases cs with
    | nil => rfl
    | cons c rest =>
      unfold headNotRun at h
      simp only [List.head?_cons] at h
      have hc : ¬ c = '\n' := by
        intro hceq
        rw [hceq] at h
        simp [isRunChar] at h
      unfold collapseFuel
      rw [if_neg hc]
      unfold headNotRun
      simpa using h

theorem takeWhile_all_self {p : Char → Bool} {l : Str}
    (h : l.all p = true) : l.takeWhile p = l := by
  apply List.Sublist.eq_of_length (List.takeWhile_sublist p)
  induction l with
  | nil => rfl
  | cons c tl ih =>
    rw [List.all_cons, Bool.and_eq_true] at h
    rw [List.takeWhile_cons_of_pos h.1]
    simp [ih h.2]

/-- A maximal run followed by a non-run head is exactly what `takeWhile`
captures. -/
theorem takeWhile_run_append {run out : Str}
    (hall : run.all isRunChar = true) (hout : headNotRun out = true) :
    (run ++ out).takeWhile isRunChar = run := by
  rw [List.takeWhile_append]
  rw [takeWhile_all_self hall]
  rw [if_pos rfl]
  have : out.takeWhile isRunChar = [] := by
    cases out with
    | nil => rfl
    | cons c tl =>
      unfold headNotRun at hout
      simp only [List.head?_cons] at hout
      rw [List.takeWhile_cons_of_neg]
      simpa using hout
  rw [this, List.append_nil]

theorem badRun_cons (c : Char) (l : Str) :
    badRun (c :: l) =
      ((decide (c = '\n') &&
        decide (3 ≤ ((c :: l).takeWhile isRunChar).count '\n')) ||
      badRun l) := rfl

theorem badRun_append_nonNl {zs out : Str}
    (h : zs.all (fun z => !(decide (z = '\n'))) = true) :
    badRun (zs ++ out) = badRun out := by
  induction zs with
  | nil => rfl
  | cons z tl ih =>
    rw [List.all_cons, Bool.and_eq_true] at h
    rw [List.cons_append, badRun_cons]
    have hz : decide (z = '\n') = false := by
      simpa using h.1
    rw [hz]
    simp only [Bool.false_and, Bool.false_or]
    exact ih h.2

theorem badRun_run_append {run out : Str}
    (hall : run.all isRunChar = true)
    (hcount : run.count '\n' ≤ 2)
    (hout : headNotRun out = true)
    (hbad : badRun out = false) :
    badRun (run ++ out) = false := by
  induction run with
  | nil => exact hbad
  | cons r tl ih =>
    rw [List.all_cons, Bool.and_eq_true] at hall
    rw [List.cons_append, badRun_cons]
    rw [← List.cons_append, takeWhile_run_append
      (by rw [List.all_cons, Bool.and_eq_true]; exact hall) hout]
    have htl : tl.count '\n' ≤ 2 := by
      rw [List.count_cons] at hcount
      omega
    rw [Bool.or_eq_false_iff]
    constructor
    · rw [Bool.and_eq_false_iff]
      right
      rw [decide_eq_false_iff_not]
      omega
    · exact ih hall.2 htl

theorem zTail_nonNl (run : Str) :
    (zTail run).all (fun z => !(decide (z = '\n'))) = true := by
  unfold zTail
  rw [List.all_reverse]
  exact List.all_takeWhile

theorem zTail_runChar {run : Str} (h : run.all isRunChar = true) :
    (zTail run).all isRunChar = true := by
  rw [List.all_eq_true] at h ⊢
  intro z hz
  apply h
  unfold zTail at hz
  rw [List.mem_reverse] at hz
  have := (List.takeWhile_sublist (l := run.reverse)
    (fun d => !(d = '\n'))).subset hz
  rwa [List.mem_reverse] at this

theorem count_zero_of_nonNl {zs : Str}
    (h : zs.all (fun z => !(decide (z = '\n'))) = true) :
    zs.count '\n' = 0 := by
  rw [List.count_eq_zero]
  intro hmem
  rw [List.all_eq_true] at h
  have := h _ hmem
  simp at this

theorem badRun_collapseFuel (fuel : Nat) :
    ∀ cs : Str, cs.length ≤ fuel → badRun (collapseFuel fuel cs) = false := by
  induction fuel with
  | zero =>
    intro cs hlen
    have hnil : cs = [] := List.eq_nil_of_length_eq_zero (by omega)
    subst hnil
    rfl
  | succ fuel ih =>
    intro cs hlen
    cases cs with
    | nil => rfl
    | cons c rest =>
      rw [List.length_cons] at hlen
      by_cases hc : c = '\n'
      · have hrc : isRunChar c = true := by
          rw [hc]
          decide
        have hafter_len : ((c :: rest).dropWhile isRunChar).length ≤ fuel := by
          rw [List.dropWhile_cons_of_pos hrc]
          have := (List.dropWhile_sublist (l := rest) isRunChar).length_le
          omega
        have hout := ih _ hafter_len
        have houtHead := headNotRun_collapseFuel fuel _
          (headNotRun_dropWhile (c :: rest))
        unfold collapseFuel
        rw [if_pos hc]
        by_cases h3 : 3 ≤ (((c :: rest)).takeWhile isRunChar).count '\n'
        · rw [if_pos h3]
          have hzs_nonNl := zTail_nonNl ((c :: rest).takeWhile isRunChar)
          have hzs_run := zTail_runChar
            (List.all_takeWhile (l := c :: rest) (p := isRunChar))
          have hpack :
              ('\n' :: '\n' :: (zTail ((c :: rest).takeWhile isRunChar) ++
                collapseFuel fuel ((c :: rest).dropWhile isRunChar))) =
              (('\n' :: '\n' :: zTail ((c :: rest).takeWhile isRunChar)) ++
                collapseFuel fuel ((c :: rest).dropWhile isRunChar)) := by
            simp
          rw [hpack]
          apply badRun_run_append _ _ houtHead hout
          · rw [List.all_cons, List.all_cons]
            simp only [Bool.and_eq_true]
            exact ⟨by decide, by decide, hzs_run⟩
          · rw [List.count_cons, List.count_cons,
              count_zero_of_nonNl hzs_nonNl]
            simp
        · rw [if_neg h3]
          apply badRun_run_append
            (List.all_takeWhile (l := c :: rest) (p := isRunChar))
            (by omega) houtHead hout
      · unfold collapseFuel
        rw [if_neg hc, badRun_cons]
        have hcd : decide (c = '\n') = false := by simpa using hc
        rw [hcd]
        simp only [Bool.false_and, Bool.false_or]
        exact ih rest (by omega)

theorem badRun_tail {c : Char} {l : Str} (h : badRun (c :: l) = false) :
    badRun l = false := by
  rw [badRun_cons, Bool.or_eq_false_iff] at h
  exact h.2

theorem badRun_dropWhile {p : Char → Bool} {l : Str}
    (h : badRun l = false) : badRun (l.dropWhile p) = false := by
  induction l with
  | nil => rfl
  | cons c tl ih =>
    by_cases hp : p c
    · rw [List.dropWhile_cons_of_pos hp]
      exact ih (badRun_tail h)
    · rwa [List.dropWhile_cons_of_neg hp]

theorem count_takeWhile_le_append (x t : Str) :
    (x.takeWhile isRunChar).count '\n' ≤
      ((x ++ t).takeWhile isRunChar).count '\n' := by
  rw [List.takeWhile_append]
  by_cases hlen : (x.takeWhile isRunChar).length = x.length
  · rw [if_pos hlen]
    have hx : x.takeWhile isRunChar = x :=
      List.Sublist.eq_of_length (List.takeWhile_sublist _) hlen
    rw [List.count_append, hx]
    omega
  · rw [if_neg hlen]

theorem badRun_of_append {a t : Str} (h : badRun (a ++ t) = false) :
    badRun a = false := by
  induction a with
  | nil => rfl
  | cons c a2 ih =>
    rw [List.cons_append] at h
    rw [badRun_cons] at h ⊢
    rw [Bool.or_eq_false_iff] at h ⊢
    constructor
    · have h1 := h.1
      rw [Bool.and_eq_false_iff] at h1 ⊢
      rcases h1 with h1 | h1
      · left
        exact h1
      · right
        rw [decide_eq_false_iff_not] at h1 ⊢
        have hmono := count_takeWhile_le_append (c :: a2) t
        rw [List.cons_append] at hmono
        omega
    · exact ih h.2

theorem badRun_trimBy {l : Str} (h : badRun l = false) :
    badRun (trimBy isSpaceGo l) = false := by
  apply badRun_of_append
    (t := ((l.dropWhile isSpaceGo).reverse.takeWhile isSpaceGo).reverse)
  rw [← trimBy_split]
  exact badRun_dropWhile h

theorem hasEdgeSpace_trimBy (l : Str) :
    hasEdgeSpace (trimBy isSpaceGo l) = false := by
  unfold hasEdgeSpace
  rw [Bool.or_eq_false_iff]
  constructor
  · cases hh : (trimBy isSpaceGo l).head? with
    | none => rfl
    | some c =>
      dsimp only
      exact trimBy_head hh
  · cases hh : (trimBy isSpaceGo l).getLast? with
    | none => rfl
    | some c =>
      dsimp only
      exact trimBy_last hh

/-- C8.  The extractor's whitespace post-processing
(`TrimSpace(multipleBlankLines.ReplaceAll(md, "\n\n"))`): for every input,
the output contains no stretch of newline/separator characters with 3 or
more newlines — i.e. every run of two or more consecutive blank lines has
been collapsed to exactly one blank line — and the output has no leading
or trailing whitespace.  In particular an input with three consecutive
blank lines reduces to exactly one, and edge whitespace is removed. -/
theorem whitespace_normalization :
    (∀ md : Str,
      badRun (extractPostWhitespace md) = false ∧
      hasEdgeSpace (extractPostWhitespace md) = false) ∧
    extractPostWhitespace "a\n\n\n\nb".data = "a\n\nb".data ∧
    extractPostWhitespace "  x  ".data = "x".data := by
  refine ⟨?_, by decide, by decide⟩
  intro md
  unfold extractPostWhitespace goTrimSpace collapseBlankLines
  exact ⟨badRun_trimBy (badRun_collapseFuel md.length md le_rfl),
    hasEdgeSpace_trimBy _⟩

/-- Witness for C6 at concrete input: truncating the 11-character
`"hello world"` to 8 cuts at the space after `"hello"`. -/
theorem truncateText_spec_witness :
    truncateText "hello world".data 8 = "hello".data ++ "...".data ∧
    (truncateText "hello world".data 8).length ≤ 8 + 3 := by
  refine ⟨?_, ?_⟩
  · have h := (truncateText_spec "hello world".data 8).2.2 (by decide) 5 (by decide) (by decide)
    exact h.1
  · exact (truncateText_spec "hello world".data 8).2.1 (by decide)

end LM
